import Mathlib

/-
Verification of the ordered asynchronous speech-synthesis delivery subsystem
of Open-LLM-VTuber.

Shallow embedding of:
  * src/open_llm_vtuber/utils/stream_audio.py
      (`_get_volume_by_chunks`, `prepare_audio_payload`)
  * src/open_llm_vtuber/conversations/tts_manager.py
      (`TTSTaskManager`: `speak`, `_process_payload_queue`, `_send_silent_payload`,
       `_process_tts`, `clear`)
  * the turn-finalization fragment of
    src/open_llm_vtuber/conversations/single_conversation.py
      (the `if tts_manager.task_list: await gather(...); send backend-synth-complete` step)

Conventions of the embedding:
  * Python numbers appearing in loudness computation are modelled as rationals.
  * Python exceptions are modelled with `Except String`.
  * The external pydub decoding step (`AudioSegment.from_file` / `make_chunks` /
    `.rms`) is opaque to this repository; an audio file is therefore modelled by
    whether it is loadable, its base64 wav rendering, and its per-chunk RMS values.
  * The asyncio interleavings of the task manager are modelled by an explicit
    event step function (`applyEvent`); ghost fields (lifecycle `epoch`, enqueue
    `uid`) annotate values without influencing any computed behaviour.
-/

/-- Wire payload record built by `prepare_audio_payload` (stream_audio.py).
The constant `"type": "audio"` field is omitted (it is the same on every record). -/
structure Payload where
  audio : Option String
  volumes : List ℚ
  slice_length : ℕ
  display_text : Option String
  actions : Option String
  forwarded : Bool
deriving DecidableEq

/-- Silent payload: the record returned by `prepare_audio_payload` when
`audio_path` is falsy (stream_audio.py lines 39-52): `audio: None`, `volumes: []`. -/
def silentPayload (chunk_length_ms : ℕ) (display_text actions : Option String)
    (forwarded : Bool) : Payload :=
  { audio := none, volumes := [], slice_length := chunk_length_ms,
    display_text := display_text, actions := actions, forwarded := forwarded }

/-- Python `max(volumes)` for a nonempty list: left fold of binary `max` seeded
with the first element. The `[]` case is never reached by the code below
(Python `max([])` raises before this value would be used). -/
def maxVolume : List ℚ → ℚ
  | [] => 0
  | v :: vs => vs.foldl max v

/-- Embedding of `_get_volume_by_chunks` (stream_audio.py lines 7-15), with the
pydub chunking already performed: the argument is the list of per-chunk RMS
values `[chunk.rms for chunk in chunks]`. Python `max([])` raises `ValueError`;
a zero maximum raises `ValueError("Audio is empty or all zero.")`; otherwise
every RMS value is divided by the maximum. -/
def getVolumeByChunks (volumes : List ℚ) : Except String (List ℚ) :=
  match volumes with
  | [] => .error "max arg is an empty sequence"
  | v :: vs =>
    let max_volume := maxVolume (v :: vs)
    if max_volume = 0 then .error "Audio is empty or all zero."
    else .ok ((v :: vs).map (fun volume => volume / max_volume))

/-- Opaque model of a generated audio file as seen through pydub:
whether `AudioSegment.from_file`/`export` succeed, the base64 of the wav bytes,
and the per-chunk RMS values produced by `make_chunks`. -/
structure AudioFile where
  loadable : Bool
  b64 : String
  rms : List ℚ
deriving DecidableEq

/-- Embedding of `prepare_audio_payload` (stream_audio.py lines 18-76).
`none` audio path short-circuits to the silent payload; otherwise loading may
fail, then the volume envelope may fail, otherwise the full record is built. -/
def prepare_audio_payload (audioFile : Option AudioFile) (chunk_length_ms : ℕ)
    (display_text actions : Option String) (forwarded : Bool) :
    Except String Payload :=
  match audioFile with
  | none => .ok (silentPayload chunk_length_ms display_text actions forwarded)
  | some af =>
    if af.loadable then
      match getVolumeByChunks af.rms with
      | .ok volumes =>
        .ok { audio := some af.b64, volumes := volumes,
              slice_length := chunk_length_ms, display_text := display_text,
              actions := actions, forwarded := forwarded }
      | .error e => .error e
    else .error "Error loading or converting generated audio file to wav file"

/-- Embedding of the synthesis worker `_process_tts` (tts_manager.py lines
166-214). `genResult` is the outcome of `await self._generate_audio(...)`
(the injected synthesis capability). The `try` body chains synthesis and
`prepare_audio_payload`; on any exception the `except` branch builds the silent
fallback payload instead. In all cases exactly one `(payload, sequence_number)`
pair is enqueued, tagged with the worker's original sequence number. -/
def processTts (genResult : Except String AudioFile)
    (display_dict actions_dict : Option String) (sequence_number : ℕ) :
    Payload × ℕ :=
  match genResult.bind (fun af =>
      prepare_audio_payload (some af) 20 display_dict actions_dict false) with
  | .ok payload => (payload, sequence_number)
  | .error _ => (silentPayload 20 display_dict actions_dict false, sequence_number)

/-- Keys of an association list (the model of a Python dict's key set). -/
def keysOf {α : Type} (l : List (ℕ × α)) : List ℕ := l.map Prod.fst

/-- Model of `buffered_payloads.pop(k)` preceded by the `k in buffered_payloads`
membership test: returns the value at the first occurrence of key `k` together
with the list with that entry removed, or `none` when the key is absent. -/
def popKey {α : Type} (k : ℕ) : List (ℕ × α) → Option (α × List (ℕ × α))
  | [] => none
  | kv :: rest =>
    if kv.1 = k then some (kv.2, rest)
    else
      match popKey k rest with
      | none => none
      | some (v, rest') => some (v, kv :: rest')

/-- Model of the Python dict assignment `buffered_payloads[k] = v`: overwrite in
place when the key exists, append otherwise. -/
def dictInsert {α : Type} (k : ℕ) (v : α) : List (ℕ × α) → List (ℕ × α)
  | [] => [(k, v)]
  | kv :: rest => if kv.1 = k then (k, v) :: rest else kv :: dictInsert k v rest

/-- Bounded iteration of the inner flush loop of `_process_payload_queue`
(tts_manager.py lines 122-135):
`while self._next_sequence_to_send in buffered_payloads:` pop the entry, send it
(`await websocket_send(...)`), then increment `_next_sequence_to_send`.
`sendOk` is the oracle deciding whether the outbound send at a given position
succeeds; on failure the exception propagates to the surrounding
`except Exception` handler, which logs and continues the outer loop — so the
popped payload is dropped and, crucially, the increment (which textually follows
the `await`) is skipped. `out` is the ghost log of records received by the
outbound channel. `fuel` bounds the number of iterations; each iteration removes
one buffer entry, so `buf.length` fuel is always enough (see
`flushLoopAux_fuel`), and `flushLoop` below supplies exactly that. -/
def flushLoopAux {α : Type} (sendOk : ℕ → Bool) :
    ℕ → ℕ → List (ℕ × α) → List (ℕ × α) → ℕ × List (ℕ × α) × List (ℕ × α)
  | 0, next, buf, out => (next, buf, out)
  | fuel + 1, next, buf, out =>
    match popKey next buf with
    | none => (next, buf, out)
    | some (v, buf') =>
      if sendOk next then
        flushLoopAux sendOk fuel (next + 1) buf' (out ++ [(next, v)])
      else (next, buf', out)

/-- The flush loop itself: run `flushLoopAux` with sufficient fuel. -/
def flushLoop {α : Type} (sendOk : ℕ → Bool) (next : ℕ)
    (buf out : List (ℕ × α)) : ℕ × List (ℕ × α) × List (ℕ × α) :=
  flushLoopAux sendOk buf.length next buf out

/-- State of the reorder sender: `_next_sequence_to_send`, the task-local
`buffered_payloads` dict, and the ghost log of everything sent over the
outbound channel so far (in send order, with sequence numbers). -/
structure SenderState (α : Type) where
  next : ℕ
  buf : List (ℕ × α)
  out : List (ℕ × α)
deriving DecidableEq

/-- Fresh sender state: `_next_sequence_to_send = 0`, empty buffer, nothing sent. -/
def initialSenderState {α : Type} : SenderState α := ⟨0, [], []⟩

/-- One iteration of the outer `while True` loop of `_process_payload_queue`
(tts_manager.py lines 114-137) on a dequeued `(payload, sequence_number)` item:
insert into the buffer dict, then run the flush loop. -/
def senderStep {α : Type} (sendOk : ℕ → Bool) (st : SenderState α)
    (item : α × ℕ) : SenderState α :=
  let buf1 := dictInsert item.2 item.1 st.buf
  let r := flushLoop sendOk st.next buf1 st.out
  ⟨r.1, r.2.1, r.2.2⟩

/-- Run the reorder sender over a whole arrival list (the order in which worker
payloads appear on `_payload_queue`). -/
def runSender {α : Type} (sendOk : ℕ → Bool) (st : SenderState α) :
    List (α × ℕ) → SenderState α
  | [] => st
  | item :: rest => runSender sendOk (senderStep sendOk st item) rest

/-- Reorder-sender invariant tying a sender state to the list `P` of sequence
numbers whose queue items the sender has already dequeued, in a run where the
item with sequence number `i` always carries value `p i` and the outbound send
at position `j` succeeds iff `sendOk j`. It packages: the outbound log is
exactly positions `0..next-1` in order; the counter only ever passed positions
whose send succeeded; buffer keys are distinct, carry the right values, and are
exactly the processed positions strictly beyond the counter; a processed
position equal to the counter can only exist if its send failed (it was popped
and dropped); and every position below the counter was processed. -/
def SenderInv {α : Type} (sendOk : ℕ → Bool) (p : ℕ → α) (P : List ℕ)
    (st : SenderState α) : Prop :=
  st.out = (List.range st.next).map (fun i => (i, p i))
  ∧ (∀ j, j < st.next → sendOk j = true)
  ∧ (keysOf st.buf).Nodup
  ∧ (∀ kv ∈ st.buf, kv.2 = p kv.1)
  ∧ (∀ j, j ∈ keysOf st.buf ↔ (j ∈ P ∧ st.next < j))
  ∧ (st.next ∈ P → sendOk st.next = false)
  ∧ (∀ j, j < st.next → j ∈ P)

example : (runSender (fun _ => true) (initialSenderState (α := ℕ))
    [(10, 1), (20, 2), (0, 0)]).out = [(0, 0), (1, 10), (2, 20)] := by decide

example : (runSender (fun s => s != 0) (initialSenderState (α := ℕ))
    [(0, 0), (10, 1)]).out = [] := by decide

/-- Characters matched by Python's `\s` on unicode strings: ASCII whitespace
and control separators plus the Unicode White_Space code points. -/
def pythonWhitespaceChars : List Char :=
  ['\x09', '\x0a', '\x0b', '\x0c', '\x0d', '\x1c', '\x1d', '\x1e', '\x1f',
   ' ', '\x85', '\xa0', ' ', ' ', ' ', ' ', ' ',
   ' ', ' ', ' ', ' ', ' ', ' ', ' ',
   ' ', ' ', ' ', ' ', '　']

/-- The explicit punctuation characters of the regex character class in `speak`
(tts_manager.py line 46): ASCII sentence punctuation, the CJK full-width
counterparts, quotes and closing brackets. -/
def strippedPunctuationChars : List Char :=
  ['.', ',', '!', '?', '，', '。', '！', '？', Char.ofNat 39, '"',
   '』', '」', '）', '】']

/-- Membership in the regex character class `[\s.,!?，。！？'"』」）】\s]`. -/
def isStrippedChar (c : Char) : Bool :=
  pythonWhitespaceChars.contains c || strippedPunctuationChars.contains c

/-- The guard of the silent short-circuit in `speak` (tts_manager.py lines
43-52): `len(re.sub(r'[...]+', "", tts_text)) == 0`. Substituting every run of
class characters with the empty string removes exactly the class characters, so
the length is zero iff every character of the text is in the class. -/
def isSilentText (tts_text : String) : Bool :=
  (tts_text.toList.filter (fun c => !(isStrippedChar c))).length == 0

/-- Argument actually passed for `tts_text`: either a Python `str`, or any
other object identified by its `str()` rendering (Python `str()` is total). -/
inductive SpeakArg where
  | ofString (s : String)
  | nonString (rendering : String)
deriving DecidableEq

/-- The coercion at the top of `speak` (tts_manager.py lines 41-42):
`if not isinstance(tts_text, str): tts_text = str(tts_text)`. -/
def strCoerce : SpeakArg → String
  | .ofString s => s
  | .nonString rendering => rendering

/-- Queue/buffer item as produced by an enqueue, with ghost annotations:
the lifecycle `epoch` of the producer and a globally unique enqueue `uid`.
Neither ghost field influences any computed behaviour. -/
structure GPayload where
  payload : Payload
  epoch : ℕ
  uid : ℕ
deriving DecidableEq

/-- A spawned synthesis worker (`asyncio.create_task(self._process_tts(...))`):
its spawn epoch (ghost), its assigned sequence number, and the payload its
predetermined synthesis outcome will produce. -/
structure Worker where
  epoch : ℕ
  seq : ℕ
  payload : Payload
deriving DecidableEq

/-- State of a `TTSTaskManager` together with the ghost bookkeeping needed to
talk about lifecycle epochs. `sender` combines `_next_sequence_to_send`, the
live sender task's local `buffered_payloads` dict, and the ghost outbound log.
`queue` is `_payload_queue`; `task_list` is `self.task_list`; `inFlight` is the
ghost list of spawned workers that have not yet enqueued their payload. -/
structure ManagerState where
  epoch : ℕ
  uidCounter : ℕ
  sequence_counter : ℕ
  sender : SenderState GPayload
  queue : List (GPayload × ℕ)
  task_list : List Worker
  inFlight : List Worker
deriving DecidableEq

/-- Fresh manager, as built by `TTSTaskManager.__init__`. -/
def initManager : ManagerState :=
  { epoch := 0, uidCounter := 0, sequence_counter := 0,
    sender := initialSenderState, queue := [], task_list := [], inFlight := [] }

/-- `await self._payload_queue.put((payload, seq))`: append to the manager's
current queue, stamping the producer's epoch and a fresh uid (ghost). -/
def enqueuePayload (st : ManagerState) (payload : Payload) (producerEpoch seq : ℕ) :
    ManagerState :=
  { st with
    queue := st.queue ++ [({ payload := payload, epoch := producerEpoch,
                             uid := st.uidCounter }, seq)],
    uidCounter := st.uidCounter + 1 }

/-- Embedding of `speak` (tts_manager.py lines 29-91). Coerce the text, test the
silent short-circuit; in the silent branch take a sequence number and enqueue
the silent payload directly (`_send_silent_payload`); otherwise take a sequence
number and spawn a `_process_tts` worker whose eventual payload is determined by
`outcome`, appending it to `task_list`. (`_ensure_sender_task` has no effect on
the modelled state: the sender's mutable state lives in `sender`.) -/
def speakImpl (st : ManagerState) (arg : SpeakArg)
    (display_text actions : Option String) (outcome : Except String AudioFile) :
    ManagerState :=
  let tts_text := strCoerce arg
  if isSilentText tts_text then
    let current_sequence := st.sequence_counter
    let st1 := { st with sequence_counter := st.sequence_counter + 1 }
    enqueuePayload st1 (silentPayload 20 display_text actions false)
      st1.epoch current_sequence
  else
    let current_sequence := st.sequence_counter
    let st1 := { st with sequence_counter := st.sequence_counter + 1 }
    let w : Worker :=
      { epoch := st1.epoch, seq := current_sequence,
        payload := (processTts outcome display_text actions current_sequence).1 }
    { st1 with task_list := st1.task_list ++ [w], inFlight := st1.inFlight ++ [w] }

/-- Events of the concurrent execution of one `TTSTaskManager`. -/
inductive MEvent where
  | speak (tts_text : SpeakArg) (display_text actions : Option String)
      (outcome : Except String AudioFile)
  | workerDone (i : ℕ)
  | senderLoop
  | clear

/-- Small-step semantics of the manager. `workerDone i` is the completion of the
i-th still-in-flight worker: it enqueues `(payload, seq)` onto the manager's
CURRENT queue (`self._payload_queue` is looked up at call time, tts_manager.py
line 192, so a worker spawned before `clear()` enqueues into the new queue).
`senderLoop` is one iteration of `_process_payload_queue` on a queued item,
with all outbound sends succeeding. `clear` is `clear()` (tts_manager.py lines
237-245): empty `task_list`, cancel the sender task (its local buffer dies; a
future sender starts with a fresh dict), reset both counters, rebind
`_payload_queue` to a new empty queue — but leave in-flight workers running.
The ghost epoch advances on `clear`; the ghost outbound log survives. -/
def applyEvent (st : ManagerState) : MEvent → ManagerState
  | .speak arg display_text actions outcome =>
      speakImpl st arg display_text actions outcome
  | .workerDone i =>
      if h : i < st.inFlight.length then
        let w := st.inFlight.get ⟨i, h⟩
        enqueuePayload { st with inFlight := st.inFlight.eraseIdx i }
          w.payload w.epoch w.seq
      else st
  | .senderLoop =>
      match st.queue with
      | [] => st
      | (gp, s) :: rest =>
        { st with queue := rest,
                  sender := senderStep (fun _ => true) st.sender (gp, s) }
  | .clear =>
      { st with
        task_list := [],
        sender := { next := 0, buf := [], out := st.sender.out },
        sequence_counter := 0,
        queue := [],
        epoch := st.epoch + 1 }

/-- Apply a list of events in order. -/
def applyEvents (st : ManagerState) : List MEvent → ManagerState
  | [] => st
  | e :: es => applyEvents (applyEvent st e) es

/-- Messages the turn-finalization step can emit on the outbound channel. -/
inductive OutMsg where
  | synthComplete
deriving DecidableEq

/-- Completion of every worker awaited by `asyncio.gather(*tts_manager.task_list)`:
each still-in-flight worker performs its enqueue, in list order. -/
def drainAux : List Worker → ManagerState → ManagerState
  | [], st => st
  | w :: rest, st => drainAux rest (enqueuePayload st w.payload w.epoch w.seq)

/-- All in-flight workers complete and enqueue their payloads. -/
def drainWorkers (st : ManagerState) : ManagerState :=
  drainAux st.inFlight { st with inFlight := [] }

/-- Embedding of the turn-finalization fragment of `process_single_conversation`
(single_conversation.py lines 212-219):
`if tts_manager.task_list: await asyncio.gather(*tts_manager.task_list);
await websocket_send(json.dumps({"type": "backend-synth-complete"}))`.
When `task_list` is empty (Python falsy) neither the gather nor the signal
happens; otherwise every pending worker enqueues its payload and then exactly
one bare synth-complete signal is sent. -/
def finalizeTurn (st : ManagerState) : ManagerState × List OutMsg :=
  if st.task_list.isEmpty then (st, [])
  else (drainWorkers st, [OutMsg.synthComplete])

/-- Concrete payload family used by witness instances. -/
def samplePayload (i : ℕ) : Payload :=
  { audio := some (toString i), volumes := [(i : ℚ)], slice_length := 20,
    display_text := none, actions := none, forwarded := false }

/-- Concrete synthesis-outcome family used by witness instances: synthesis of
segment 1 raises, every other segment yields a loadable one-chunk audio file. -/
def sampleOutcomes (i : ℕ) : Except String AudioFile :=
  if i = 1 then .error "synthesis failed"
  else .ok { loadable := true, b64 := "AA", rms := [1] }

/-- Concrete manager state used by witness instances: one item already sitting
on the submission queue, one uid consumed. -/
def sampleDirtyState : ManagerState :=
  { epoch := 0, uidCounter := 1, sequence_counter := 1,
    sender := { next := 0, buf := [], out := [] },
    queue := [({ payload := samplePayload 0, epoch := 0, uid := 0 }, 0)],
    task_list := [], inFlight := [] }

example : isSilentText "...!?" = true := by decide

example : isSilentText "Hello." = false := by decide

example : getVolumeByChunks [10, 20, 0, 40, 20] =
    .ok [1/4, 1/2, 0, 1, 1/2] := by
  show Except.ok _ = _
  norm_num [getVolumeByChunks, maxVolume]

theorem keysOf_nil {α : Type} : keysOf ([] : List (ℕ × α)) = [] := rfl

theorem keysOf_cons {α : Type} (kv : ℕ × α) (l : List (ℕ × α)) :
    keysOf (kv :: l) = kv.1 :: keysOf l := rfl

theorem keysOf_append {α : Type} (l l' : List (ℕ × α)) :
    keysOf (l ++ l') = keysOf l ++ keysOf l' := by
  simp [keysOf]

theorem mem_keysOf {α : Type} {j : ℕ} {l : List (ℕ × α)} :
    j ∈ keysOf l ↔ ∃ v, (j, v) ∈ l := by
  simp only [keysOf, List.mem_map]
  constructor
  · rintro ⟨⟨a, b⟩, hab, rfl⟩
    exact ⟨b, hab⟩
  · rintro ⟨v, hv⟩
    exact ⟨(j, v), hv, rfl⟩

theorem popKey_none_iff {α : Type} {k : ℕ} {l : List (ℕ × α)} :
    popKey k l = none ↔ k ∉ keysOf l := by
  induction l with
  | nil => simp [popKey, keysOf]
  | cons kv rest ih =>
    by_cases h : kv.1 = k
    · simp [popKey, h, keysOf_cons]
    · cases hrec : popKey k rest with
      | none =>
        rw [hrec] at ih
        have ihx : k ∉ keysOf rest := ih.mp rfl
        simp [popKey, h, hrec, keysOf_cons, ihx]
        exact fun he => h he.symm
      | some p =>
        obtain ⟨v, rest'⟩ := p
        have hmem : k ∈ keysOf rest := by
          by_contra hr
          rw [ih.mpr hr] at hrec
          simp at hrec
        simp [popKey, h, hrec, keysOf_cons, hmem]

theorem popKey_some_mem {α : Type} {k : ℕ} {l l' : List (ℕ × α)} {v : α}
    (h : popKey k l = some (v, l')) : (k, v) ∈ l := by
  induction l generalizing l' with
  | nil => simp [popKey] at h
  | cons kv rest ih =>
    obtain ⟨a, b⟩ := kv
    by_cases hk : a = k
    · simp only [popKey, hk, if_pos] at h
      simp only [Option.some.injEq, Prod.mk.injEq] at h
      have : (a, b) = (k, v) := by
        rw [hk, h.1]
      rw [← this]
      exact List.mem_cons_self _ _
    · simp only [popKey, hk, if_neg, not_false_iff] at h
      cases hrec : popKey k rest with
      | none => rw [hrec] at h; simp at h
      | some p =>
        obtain ⟨v0, rest0⟩ := p
        rw [hrec] at h
        simp only [Option.some.injEq, Prod.mk.injEq] at h
        rw [h.1] at hrec
        exact List.mem_cons_of_mem _ (ih hrec)

theorem popKey_some_sub {α : Type} {k : ℕ} {l l' : List (ℕ × α)} {v : α}
    (h : popKey k l = some (v, l')) : ∀ kv ∈ l', kv ∈ l := by
  induction l generalizing l' with
  | nil => simp [popKey] at h
  | cons kv0 rest ih =>
    by_cases hk : kv0.1 = k
    · simp only [popKey, hk, if_pos, Option.some.injEq, Prod.mk.injEq] at h
      intro kv hkv
      rw [← h.2] at hkv
      exact List.mem_cons_of_mem _ hkv
    · simp only [popKey, hk, if_neg, not_false_iff] at h
      cases hrec : popKey k rest with
      | none => rw [hrec] at h; simp at h
      | some p =>
        obtain ⟨v0, rest0⟩ := p
        rw [hrec] at h
        simp only [Option.some.injEq, Prod.mk.injEq] at h
        rw [h.1] at hrec
        intro kv hkv
        rw [← h.2] at hkv
        rcases List.mem_cons.mp hkv with hkv | hkv
        · rw [hkv]; exact List.mem_cons_self _ _
        · exact List.mem_cons_of_mem _ (ih hrec kv hkv)

theorem popKey_some_length {α : Type} {k : ℕ} {l l' : List (ℕ × α)} {v : α}
    (h : popKey k l = some (v, l')) : l'.length + 1 = l.length := by
  induction l generalizing l' with
  | nil => simp [popKey] at h
  | cons kv0 rest ih =>
    by_cases hk : kv0.1 = k
    · simp only [popKey, hk, if_pos, Option.some.injEq, Prod.mk.injEq] at h
      rw [← h.2]
      simp
    · simp only [popKey, hk, if_neg, not_false_iff] at h
      cases hrec : popKey k rest with
      | none => rw [hrec] at h; simp at h
      | some p =>
        obtain ⟨v0, rest0⟩ := p
        rw [hrec] at h
        simp only [Option.some.injEq, Prod.mk.injEq] at h
        rw [h.1] at hrec
        rw [← h.2]
        simp only [List.length_cons]
        rw [ih hrec]

theorem popKey_some_keys {α : Type} {k : ℕ} {l l' : List (ℕ × α)} {v : α}
    (hnd : (keysOf l).Nodup) (h : popKey k l = some (v, l')) :
    ∀ j, j ∈ keysOf l' ↔ (j ∈ keysOf l ∧ j ≠ k) := by
  induction l generalizing l' with
  | nil => simp [popKey] at h
  | cons kv0 rest ih =>
    rw [keysOf_cons] at hnd
    have hnd1 : kv0.1 ∉ keysOf rest := (List.nodup_cons.mp hnd).1
    have hnd2 : (keysOf rest).Nodup := (List.nodup_cons.mp hnd).2
    by_cases hk : kv0.1 = k
    · simp only [popKey, hk, if_pos, Option.some.injEq, Prod.mk.injEq] at h
      intro j
      rw [← h.2, keysOf_cons]
      constructor
      · intro hj
        refine ⟨List.mem_cons_of_mem _ hj, ?_⟩
        intro hjk
        rw [hjk, ← hk] at hj
        exact hnd1 hj
      · rintro ⟨hj, hjk⟩
        rcases List.mem_cons.mp hj with hj | hj
        · exact absurd (hj.trans hk) hjk
        · exact hj
    · simp only [popKey, hk, if_neg, not_false_iff] at h
      cases hrec : popKey k rest with
      | none => rw [hrec] at h; simp at h
      | some p =>
        obtain ⟨v0, rest0⟩ := p
        rw [hrec] at h
        simp only [Option.some.injEq, Prod.mk.injEq] at h
        rw [h.1] at hrec
        intro j
        rw [← h.2, keysOf_cons, keysOf_cons]
        rw [List.mem_cons, List.mem_cons, ih hnd2 hrec j]
        constructor
        · rintro (hj | ⟨hj, hjk⟩)
          · refine ⟨Or.inl hj, ?_⟩
            intro hjk
            rw [hjk] at hj
            exact hk hj.symm
          · exact ⟨Or.inr hj, hjk⟩
        · rintro ⟨hj | hj, hjk⟩
          · exact Or.inl hj
          · exact Or.inr ⟨hj, hjk⟩

theorem popKey_some_nodup {α : Type} {k : ℕ} {l l' : List (ℕ × α)} {v : α}
    (hnd : (keysOf l).Nodup) (h : popKey k l = some (v, l')) :
    (keysOf l').Nodup := by
  induction l generalizing l' with
  | nil => simp [popKey] at h
  | cons kv0 rest ih =>
    rw [keysOf_cons] at hnd
    have hnd1 : kv0.1 ∉ keysOf rest := (List.nodup_cons.mp hnd).1
    have hnd2 : (keysOf rest).Nodup := (List.nodup_cons.mp hnd).2
    by_cases hk : kv0.1 = k
    · simp only [popKey, hk, if_pos, Option.some.injEq, Prod.mk.injEq] at h
      rw [← h.2]
      exact hnd2
    · simp only [popKey, hk, if_neg, not_false_iff] at h
      cases hrec : popKey k rest with
      | none => rw [hrec] at h; simp at h
      | some p =>
        obtain ⟨v0, rest0⟩ := p
        rw [hrec] at h
        simp only [Option.some.injEq, Prod.mk.injEq] at h
        rw [h.1] at hrec
        rw [← h.2, keysOf_cons]
        refine List.nodup_cons.mpr ⟨?_, ih hnd2 hrec⟩
        intro habs
        exact hnd1 (((popKey_some_keys hnd2 hrec) kv0.1).mp habs).1

theorem flushLoopAux_spec {α : Type} (sendOk : ℕ → Bool) (p : ℕ → α) :
    ∀ (fuel : ℕ) (buf : List (ℕ × α)) (next : ℕ) (out : List (ℕ × α))
      (next' : ℕ) (buf2 out2 : List (ℕ × α)),
    flushLoopAux sendOk fuel next buf out = (next', buf2, out2) →
    buf.length ≤ fuel →
    (keysOf buf).Nodup →
    (∀ kv ∈ buf, kv.2 = p kv.1) →
    ∃ m : ℕ, next' = next + m
      ∧ (∀ i, i < m → (next + i) ∈ keysOf buf ∧ sendOk (next + i) = true)
      ∧ out2 = out ++ (List.range' next m).map (fun i => (i, p i))
      ∧ (keysOf buf2).Nodup
      ∧ (∀ kv ∈ buf2, kv.2 = p kv.1)
      ∧ (((next + m) ∉ keysOf buf
           ∧ ∀ j, j ∈ keysOf buf2 ↔ (j ∈ keysOf buf ∧ ¬(next ≤ j ∧ j < next + m)))
        ∨ ((next + m) ∈ keysOf buf ∧ sendOk (next + m) = false
           ∧ ∀ j, j ∈ keysOf buf2 ↔ (j ∈ keysOf buf ∧ ¬(next ≤ j ∧ j ≤ next + m)))) := by
  intro fuel
  induction fuel with
  | zero =>
    intro buf next out next' buf2 out2 heq hlen hnd hval
    have hbuf : buf = [] := List.length_eq_zero.mp (Nat.le_zero.mp hlen)
    subst hbuf
    simp only [flushLoopAux] at heq
    injection heq with ha hbc
    injection hbc with hb hc
    subst ha hb hc
    refine ⟨0, by omega, by omega, by simp, by simp [keysOf], by simp, ?_⟩
    left
    simp [keysOf]
  | succ fuel ih =>
    intro buf next out next' buf2 out2 heq hlen hnd hval
    simp only [flushLoopAux] at heq
    split at heq
    · rename_i hpk
      injection heq with ha hbc
      injection hbc with hb hc
      subst ha hb hc
      refine ⟨0, by omega, by omega, by simp, hnd, hval, ?_⟩
      left
      constructor
      · rw [Nat.add_zero]
        exact popKey_none_iff.mp hpk
      · intro j
        constructor
        · intro hj
          exact ⟨hj, by omega⟩
        · intro hj
          exact hj.1
    · rename_i v buf' hpk
      have hv : v = p next := hval (next, v) (popKey_some_mem hpk)
      have hnd' : (keysOf buf').Nodup := popKey_some_nodup hnd hpk
      have hval' : ∀ kv ∈ buf', kv.2 = p kv.1 :=
        fun kv hkv => hval kv (popKey_some_sub hpk kv hkv)
      have hkeys' : ∀ j, j ∈ keysOf buf' ↔ (j ∈ keysOf buf ∧ j ≠ next) :=
        popKey_some_keys hnd hpk
      have hmemnext : next ∈ keysOf buf :=
        mem_keysOf.mpr ⟨v, popKey_some_mem hpk⟩
      have hlen' : buf'.length ≤ fuel := by
        have := popKey_some_length hpk
        omega
      split at heq
      · rename_i hs
        obtain ⟨m0, h1, h2, h3, h4, h5, h6⟩ :=
          ih buf' (next + 1) (out ++ [(next, v)]) next' buf2 out2 heq hlen' hnd' hval'
        refine ⟨m0 + 1, by omega, ?_, ?_, h4, h5, ?_⟩
        · intro i hi
          cases i with
          | zero => exact ⟨by rw [Nat.add_zero]; exact hmemnext,
                          by rw [Nat.add_zero]; exact hs⟩
          | succ i' =>
            have hi' : i' < m0 := by omega
            obtain ⟨hk, hsend⟩ := h2 i' hi'
            have harith : next + (i' + 1) = next + 1 + i' := by omega
            rw [harith]
            exact ⟨(hkeys' _).mp hk |>.1, hsend⟩
        · rw [h3, hv, List.append_assoc, List.singleton_append,
            List.range'_succ, List.map_cons]
        · rcases h6 with ⟨habs, hiff⟩ | ⟨hmem, hfalse, hiff⟩
          · left
            constructor
            · intro hcon
              apply habs
              rw [hkeys']
              exact ⟨by rw [show next + 1 + m0 = next + (m0 + 1) by omega]; exact hcon,
                     by omega⟩
            · intro j
              rw [hiff j, hkeys' j]
              constructor
              · rintro ⟨⟨hj, hne⟩, hno⟩
                refine ⟨hj, ?_⟩
                rcases eq_or_ne j next with he | hne2
                · exact absurd he hne
                · omega
              · rintro ⟨hj, hno⟩
                exact ⟨⟨hj, by omega⟩, by omega⟩
          · right
            refine ⟨?_, ?_, ?_⟩
            · have := (hkeys' _).mp hmem
              rw [show next + (m0 + 1) = next + 1 + m0 by omega]
              exact this.1
            · rw [show next + (m0 + 1) = next + 1 + m0 by omega]
              exact hfalse
            · intro j
              rw [hiff j, hkeys' j]
              constructor
              · rintro ⟨⟨hj, hne⟩, hno⟩
                refine ⟨hj, ?_⟩
                rcases eq_or_ne j next with he | hne2
                · exact absurd he hne
                · omega
              · rintro ⟨hj, hno⟩
                exact ⟨⟨hj, by omega⟩, by omega⟩
      · rename_i hs
        have hsf : sendOk next = false := by
          revert hs
          cases sendOk next <;> simp
        injection heq with ha hbc
        injection hbc with hb hc
        subst ha hb hc
        refine ⟨0, by omega, by omega, by simp, hnd', hval', ?_⟩
        right
        refine ⟨by rw [Nat.add_zero]; exact hmemnext,
                by rw [Nat.add_zero]; exact hsf, ?_⟩
        intro j
        rw [hkeys' j]
        constructor
        · rintro ⟨hj, hne⟩
          exact ⟨hj, by omega⟩
        · rintro ⟨hj, hno⟩
          exact ⟨hj, by omega⟩

theorem dictInsert_of_not_mem {α : Type} {k : ℕ} {v : α} {d : List (ℕ × α)}
    (h : k ∉ keysOf d) : dictInsert k v d = d ++ [(k, v)] := by
  induction d with
  | nil => rfl
  | cons kv rest ih =>
    rw [keysOf_cons, List.mem_cons] at h
    push_neg at h
    have hk : ¬ kv.1 = k := fun he => h.1 he.symm
    simp only [dictInsert, hk, if_neg, not_false_iff, List.cons_append,
      List.cons.injEq, true_and]
    exact ih h.2

theorem dictInsert_mem {α : Type} {k : ℕ} {v : α} {d : List (ℕ × α)} :
    ∀ kv ∈ dictInsert k v d, kv = (k, v) ∨ kv ∈ d := by
  induction d with
  | nil =>
    intro kv hkv
    simp [dictInsert] at hkv
    exact Or.inl hkv
  | cons kv0 rest ih =>
    intro kv hkv
    by_cases hk : kv0.1 = k
    · simp only [dictInsert, hk, if_pos] at hkv
      rcases List.mem_cons.mp hkv with hkv | hkv
      · exact Or.inl hkv
      · exact Or.inr (List.mem_cons_of_mem _ hkv)
    · simp only [dictInsert, hk, if_neg, not_false_iff] at hkv
      rcases List.mem_cons.mp hkv with hkv | hkv
      · exact Or.inr (hkv ▸ List.mem_cons_self _ _)
      · rcases ih kv hkv with h | h
        · exact Or.inl h
        · exact Or.inr (List.mem_cons_of_mem _ h)

theorem flushLoopAux_popKey_none {α : Type} {sendOk : ℕ → Bool} {fuel next : ℕ}
    {buf out : List (ℕ × α)} (h : popKey next buf = none) :
    flushLoopAux sendOk fuel next buf out = (next, buf, out) := by
  cases fuel with
  | zero => rfl
  | succ fuel => simp [flushLoopAux, h]

theorem flushLoop_spec {α : Type} (sendOk : ℕ → Bool) (p : ℕ → α)
    (buf : List (ℕ × α)) (next : ℕ) (out : List (ℕ × α))
    (hnd : (keysOf buf).Nodup) (hval : ∀ kv ∈ buf, kv.2 = p kv.1) :
    ∃ m : ℕ, (flushLoop sendOk next buf out).1 = next + m
      ∧ (∀ i, i < m → (next + i) ∈ keysOf buf ∧ sendOk (next + i) = true)
      ∧ (flushLoop sendOk next buf out).2.2
          = out ++ (List.range' next m).map (fun i => (i, p i))
      ∧ (keysOf (flushLoop sendOk next buf out).2.1).Nodup
      ∧ (∀ kv ∈ (flushLoop sendOk next buf out).2.1, kv.2 = p kv.1)
      ∧ (((next + m) ∉ keysOf buf
           ∧ ∀ j, j ∈ keysOf (flushLoop sendOk next buf out).2.1
               ↔ (j ∈ keysOf buf ∧ ¬(next ≤ j ∧ j < next + m)))
        ∨ ((next + m) ∈ keysOf buf ∧ sendOk (next + m) = false
           ∧ ∀ j, j ∈ keysOf (flushLoop sendOk next buf out).2.1
               ↔ (j ∈ keysOf buf ∧ ¬(next ≤ j ∧ j ≤ next + m)))) :=
  flushLoopAux_spec sendOk p buf.length buf next out
    (flushLoop sendOk next buf out).1
    (flushLoop sendOk next buf out).2.1
    (flushLoop sendOk next buf out).2.2
    rfl (Nat.le_refl _) hnd hval

theorem senderInv_initial {α : Type} (sendOk : ℕ → Bool) (p : ℕ → α) :
    SenderInv sendOk p [] (initialSenderState (α := α)) := by
  refine ⟨by simp [initialSenderState], ?_, ?_, ?_, ?_, ?_, ?_⟩ <;>
    simp [initialSenderState, keysOf]

theorem senderInv_components {α : Type} (sendOk : ℕ → Bool) (p : ℕ → α)
    (P : List ℕ) (nx : ℕ) (bf ot : List (ℕ × α)) :
    SenderInv sendOk p P ⟨nx, bf, ot⟩ ↔
      (ot = (List.range nx).map (fun i => (i, p i))
       ∧ (∀ j, j < nx → sendOk j = true)
       ∧ (keysOf bf).Nodup
       ∧ (∀ kv ∈ bf, kv.2 = p kv.1)
       ∧ (∀ j, j ∈ keysOf bf ↔ (j ∈ P ∧ nx < j))
       ∧ (nx ∈ P → sendOk nx = false)
       ∧ (∀ j, j < nx → j ∈ P)) := Iff.rfl

theorem senderStep_inv {α : Type} {sendOk : ℕ → Bool} {p : ℕ → α} {P : List ℕ}
    {st : SenderState α} {s : ℕ}
    (hInv : SenderInv sendOk p P st) (hs : s ∉ P) :
    SenderInv sendOk p (P ++ [s]) (senderStep sendOk st (p s, s)) := by
  obtain ⟨hO, hT, hN, hV, hK, hK2, hR⟩ := hInv
  have hsnotbuf : s ∉ keysOf st.buf := fun hmem => hs ((hK s).mp hmem).1
  have hbuf1 : dictInsert s (p s) st.buf = st.buf ++ [(s, p s)] :=
    dictInsert_of_not_mem hsnotbuf
  have hge : st.next ≤ s := by
    by_contra hlt
    push_neg at hlt
    exact hs (hR s hlt)
  have hkeys1 : ∀ j, j ∈ keysOf (st.buf ++ [(s, p s)]) ↔
      (j ∈ keysOf st.buf ∨ j = s) := by
    intro j
    rw [keysOf_append]
    simp [keysOf]
  have hnd1 : (keysOf (st.buf ++ [(s, p s)])).Nodup := by
    rw [keysOf_append]
    refine List.Nodup.append hN (by simp [keysOf]) ?_
    intro a ha hb
    simp [keysOf] at hb
    rw [hb] at ha
    exact hsnotbuf ha
  have hval1 : ∀ kv ∈ st.buf ++ [(s, p s)], kv.2 = p kv.1 := by
    intro kv hkv
    rcases List.mem_append.mp hkv with h | h
    · exact hV kv h
    · simp at h
      rw [h]
  rcases Nat.lt_or_ge st.next s with hlt | hge2
  · -- strictly later sequence number: the flush loop does not fire
    have hnone : popKey st.next (st.buf ++ [(s, p s)]) = none := by
      rw [popKey_none_iff]
      intro hmem
      rcases (hkeys1 _).mp hmem with h | h
      · have := (hK _).mp h
        omega
      · omega
    have hstep : senderStep sendOk st (p s, s)
        = ⟨st.next, st.buf ++ [(s, p s)], st.out⟩ := by
      simp only [senderStep, flushLoop, hbuf1]
      rw [flushLoopAux_popKey_none hnone]
    rw [hstep, senderInv_components]
    refine ⟨hO, hT, hnd1, hval1, ?_, ?_, ?_⟩
    · intro j
      rw [hkeys1 j]
      constructor
      · rintro (h | h)
        · have := (hK j).mp h
          exact ⟨List.mem_append.mpr (Or.inl this.1), this.2⟩
        · exact ⟨List.mem_append.mpr (Or.inr (by simp [h])), by omega⟩
      · rintro ⟨hj, hjlt⟩
        rcases List.mem_append.mp hj with h | h
        · exact Or.inl ((hK j).mpr ⟨h, hjlt⟩)
        · simp at h
          exact Or.inr h
    · intro hmem
      rcases List.mem_append.mp hmem with h | h
      · exact hK2 h
      · simp at h
        omega
    · intro j hj
      exact List.mem_append.mpr (Or.inl (hR j hj))
  · -- the new item is exactly the next expected position: the flush loop fires
    have hseq : st.next = s := by omega
    have hstep : senderStep sendOk st (p s, s)
        = ⟨(flushLoop sendOk s (st.buf ++ [(s, p s)]) st.out).1,
           (flushLoop sendOk s (st.buf ++ [(s, p s)]) st.out).2.1,
           (flushLoop sendOk s (st.buf ++ [(s, p s)]) st.out).2.2⟩ := by
      simp only [senderStep, flushLoop, hbuf1, hseq]
    rw [hstep, senderInv_components]
    obtain ⟨m, h1, h2, h3, h4, h5, h6⟩ :=
      flushLoop_spec sendOk p (st.buf ++ [(s, p s)]) s st.out hnd1 hval1
    have hsmem1 : s ∈ keysOf (st.buf ++ [(s, p s)]) := (hkeys1 s).mpr (Or.inr rfl)
    refine ⟨?_, ?_, h4, h5, ?_, ?_, ?_⟩
    · rw [h3, h1, hO, hseq, List.range_eq_range', List.range_eq_range',
        ← List.map_append]
      congr 1
      have := List.range'_append_1 0 s m
      rw [Nat.add_comm s m]
      simpa using this
    · intro j hj
      rw [h1] at hj
      rcases Nat.lt_or_ge j s with hjs | hjs
      · exact hT j (by omega)
      · have : j = s + (j - s) := by omega
        rw [this]
        exact (h2 (j - s) (by omega)).2
    · intro j
      rw [h1]
      rcases h6 with ⟨habs, hiff⟩ | ⟨hmem, hfail, hiff⟩
      · have hm1 : 1 ≤ m := by
          rcases Nat.eq_zero_or_pos m with hm | hm
          · rw [hm, Nat.add_zero] at habs
            exact absurd hsmem1 habs
          · omega
        rw [hiff j, hkeys1 j]
        constructor
        · rintro ⟨hj | hj, hno⟩
          · have hjP := (hK j).mp hj
            have hjne : j ≠ s + m := by
              intro he
              apply habs
              rw [← he]
              exact (hkeys1 j).mpr (Or.inl hj)
            exact ⟨List.mem_append.mpr (Or.inl hjP.1), by omega⟩
          · omega
        · rintro ⟨hj, hjgt⟩
          rcases List.mem_append.mp hj with h | h
          · exact ⟨Or.inl ((hK j).mpr ⟨h, by omega⟩), by omega⟩
          · simp at h
            omega
      · rw [hiff j, hkeys1 j]
        constructor
        · rintro ⟨hj | hj, hno⟩
          · have hjP := (hK j).mp hj
            exact ⟨List.mem_append.mpr (Or.inl hjP.1), by omega⟩
          · omega
        · rintro ⟨hj, hjgt⟩
          rcases List.mem_append.mp hj with h | h
          · exact ⟨Or.inl ((hK j).mpr ⟨h, by omega⟩), by omega⟩
          · simp at h
            omega
    · rw [h1]
      intro hmem'
      rcases h6 with ⟨habs, hiff⟩ | ⟨hmem, hfail, hiff⟩
      · exfalso
        have hm1 : 1 ≤ m := by
          rcases Nat.eq_zero_or_pos m with hm | hm
          · rw [hm, Nat.add_zero] at habs
            exact absurd hsmem1 habs
          · omega
        rcases List.mem_append.mp hmem' with h | h
        · apply habs
          apply (hkeys1 _).mpr
          left
          exact (hK _).mpr ⟨h, by omega⟩
        · simp at h
          omega
      · exact hfail
    · rw [h1]
      intro j hj
      rcases Nat.lt_or_ge j s with hjs | hjs
      · exact List.mem_append.mpr (Or.inl (hR j (by omega)))
      · rcases Nat.eq_or_lt_of_le hjs with hje | hjlt
        · rw [← hje]
          exact List.mem_append.mpr (Or.inr (by simp))
        · have hj2 : j = s + (j - s) := by omega
          have := (h2 (j - s) (by omega)).1
          rw [← hj2] at this
          rcases (hkeys1 j).mp this with h | h
          · exact List.mem_append.mpr (Or.inl ((hK j).mp h).1)
          · exact List.mem_append.mpr (Or.inr (by simp [h]))

theorem runSender_inv {α : Type} {sendOk : ℕ → Bool} {p : ℕ → α} :
    ∀ (arr : List ℕ) (P : List ℕ) (st : SenderState α),
    SenderInv sendOk p P st → (∀ a ∈ arr, a ∉ P) → arr.Nodup →
    SenderInv sendOk p (P ++ arr)
      (runSender sendOk st (arr.map fun i => (p i, i))) := by
  intro arr
  induction arr with
  | nil =>
    intro P st h _ _
    simpa using h
  | cons a rest ih =>
    intro P st h hfresh hnd
    have hstep := senderStep_inv h (hfresh a (by simp))
    have hfresh' : ∀ b ∈ rest, b ∉ P ++ [a] := by
      intro b hb
      rw [List.mem_append]
      rintro (hbP | hba)
      · exact hfresh b (by simp [hb]) hbP
      · simp at hba
        rw [hba] at hb
        exact (List.nodup_cons.mp hnd).1 hb
    have hnd' := (List.nodup_cons.mp hnd).2
    have hrec := ih (P ++ [a]) _ hstep hfresh' hnd'
    simpa [List.append_assoc] using hrec

theorem runSender_true_spec {α : Type} (p : ℕ → α) (n : ℕ) (arr : List ℕ)
    (st : SenderState α) (hperm : arr.Perm (List.range n))
    (heq : runSender (fun _ => true) initialSenderState
      (arr.map fun i => (p i, i)) = st) :
    st.next = n ∧ st.out = (List.range n).map (fun i => (i, p i))
      ∧ st.buf = [] := by
  have hnd : arr.Nodup := hperm.nodup_iff.mpr (List.nodup_range n)
  have hmem : ∀ j, j ∈ arr ↔ j < n := by
    intro j
    rw [hperm.mem_iff, List.mem_range]
  have hinv := @runSender_inv α (fun _ => true) p arr [] initialSenderState
    (senderInv_initial (fun _ => true) p) (by simp) hnd
  rw [List.nil_append, heq] at hinv
  obtain ⟨hO, hT, hN, hV, hK, hK2, hR⟩ := hinv
  have hnext : st.next = n := by
    have h1 : st.next ∉ arr := by
      intro hmem2
      simpa using hK2 hmem2
    have h2 : ¬ st.next < n := fun hlt => h1 ((hmem _).mpr hlt)
    have h3 : st.next ≤ n := by
      by_contra hgt
      push_neg at hgt
      have := hR n (by omega)
      rw [hmem] at this
      omega
    omega
  refine ⟨hnext, by rw [hO, hnext], ?_⟩
  have hkeys : keysOf st.buf = [] := by
    rw [List.eq_nil_iff_forall_not_mem]
    intro j hj
    have := (hK j).mp hj
    rw [hmem] at this
    omega
  have := congrArg List.length hkeys
  simp only [keysOf, List.length_map, List.length_nil] at this
  exact List.eq_nil_of_length_eq_zero this

/-- C1: for segments submitted in order (receiving sequence numbers 0,1,…,n−1)
whose payloads arrive on the submission queue in an arbitrary order `arr`
(any permutation of the sequence numbers), the reorder sender
(`_process_payload_queue` with all outbound sends succeeding) emits exactly one
payload per segment, in exactly the submission order: the outbound log is
`[(0, p 0), (1, p 1), …, (n−1, p (n−1))]`. -/
theorem claim1_order_preservation (p : ℕ → Payload) (n : ℕ) (arr : List ℕ)
    (hperm : arr.Perm (List.range n)) :
    (runSender (fun _ => true) initialSenderState
      (arr.map fun i => (p i, i))).out
      = (List.range n).map (fun i => (i, p i)) :=
  (runSender_true_spec p n arr _ hperm rfl).2.1

theorem claim1_order_preservation_witness :
    ([2, 0, 1] : List ℕ).Perm (List.range 3)
    ∧ (runSender (fun _ => true) initialSenderState
        (([2, 0, 1] : List ℕ).map fun i => (samplePayload i, i))).out
      = (List.range 3).map (fun i => (i, samplePayload i)) :=
  ⟨by decide, claim1_order_preservation samplePayload 3 [2, 0, 1] (by decide)⟩

/-- C2: along any run of the reorder sender on distinct sequence numbers (the
state after the flush loop of each processed queue item has completed, i.e.
after any prefix `pref` of the arrivals), no sequence number is ever flushed
twice (the flushed keys are exactly `0..next-1`, without duplicates),
`_next_sequence_to_send` equals the number of payloads flushed so far (it
starts at `0` in the initial state and the flushed log is exactly
`range next`, so each flush advanced it by exactly one), and the pending
buffer holds no key less than or equal to `_next_sequence_to_send`. -/
theorem claim2_exactly_once (p : ℕ → Payload) (pref : List ℕ)
    (hnd : pref.Nodup) :
    (initialSenderState (α := Payload)).next = 0
    ∧ (runSender (fun _ => true) initialSenderState
        (pref.map fun i => (p i, i))).next
      = (runSender (fun _ => true) initialSenderState
        (pref.map fun i => (p i, i))).out.length
    ∧ keysOf (runSender (fun _ => true) initialSenderState
        (pref.map fun i => (p i, i))).out
      = List.range (runSender (fun _ => true) initialSenderState
        (pref.map fun i => (p i, i))).next
    ∧ (keysOf (runSender (fun _ => true) initialSenderState
        (pref.map fun i => (p i, i))).out).Nodup
    ∧ ∀ k ∈ keysOf (runSender (fun _ => true) initialSenderState
        (pref.map fun i => (p i, i))).buf,
        (runSender (fun _ => true) initialSenderState
          (pref.map fun i => (p i, i))).next < k := by
  have hinv := @runSender_inv Payload (fun _ => true) p pref [] initialSenderState
    (senderInv_initial (fun _ => true) p) (by simp) hnd
  rw [List.nil_append] at hinv
  obtain ⟨hO, hT, hN, hV, hK, hK2, hR⟩ := hinv
  refine ⟨rfl, ?_, ?_, ?_, ?_⟩
  · rw [hO]
    simp
  · rw [hO]
    simp only [keysOf, List.map_map]
    rw [show (Prod.fst ∘ fun i : ℕ => (i, p i)) = id from rfl]
    exact List.map_id _
  · rw [hO]
    have : keysOf (List.map (fun i => (i, p i))
        (List.range (runSender (fun _ => true) initialSenderState
          (pref.map fun i => (p i, i))).next))
        = List.range (runSender (fun _ => true) initialSenderState
          (pref.map fun i => (p i, i))).next := by
      simp only [keysOf, List.map_map]
      rw [show (Prod.fst ∘ fun i : ℕ => (i, p i)) = id from rfl]
      exact List.map_id _
    rw [this]
    exact List.nodup_range _
  · intro k hk
    exact ((hK k).mp hk).2

theorem claim2_exactly_once_witness :
    ([1, 0, 2] : List ℕ).Nodup
    ∧ (runSender (fun _ => true) initialSenderState
        (([1, 0, 2] : List ℕ).map fun i => (samplePayload i, i))).next
      = (runSender (fun _ => true) initialSenderState
        (([1, 0, 2] : List ℕ).map fun i => (samplePayload i, i))).out.length :=
  ⟨by decide, (claim2_exactly_once samplePayload [1, 0, 2] (by decide)).2.1⟩

/-- C3: for a segment whose synthesis capability call, audio decoding, or
envelope computation raises (the chained `Except` pipeline of `_process_tts`
ends in an error), the worker does not propagate the failure: `processTts` is
total and returns exactly one payload, the silent fallback (`audio` absent),
tagged with the segment's original sequence number — and in a full run of the
reorder sender over any arrival permutation, that fallback payload is still
flushed at exactly position `k`, between its neighbours. -/
theorem claim3_fallback (outcomes : ℕ → Except String AudioFile)
    (dd ac : ℕ → Option String) (n k : ℕ) (arr : List ℕ)
    (hperm : arr.Perm (List.range n)) (hk : k < n)
    (hfail : ∃ e, (outcomes k).bind (fun af =>
        prepare_audio_payload (some af) 20 (dd k) (ac k) false) = .error e) :
    processTts (outcomes k) (dd k) (ac k) k
      = (silentPayload 20 (dd k) (ac k) false, k)
    ∧ ((runSender (fun _ => true) initialSenderState
        (arr.map fun i => ((processTts (outcomes i) (dd i) (ac i) i).1, i))).out)[k]?
      = some (k, silentPayload 20 (dd k) (ac k) false) := by
  obtain ⟨e, he⟩ := hfail
  have h1 : processTts (outcomes k) (dd k) (ac k) k
      = (silentPayload 20 (dd k) (ac k) false, k) := by
    simp [processTts, he]
  refine ⟨h1, ?_⟩
  have hout := (runSender_true_spec
    (fun i => (processTts (outcomes i) (dd i) (ac i) i).1) n arr _ hperm rfl).2.1
  rw [hout]
  rw [List.getElem?_map, List.getElem?_range hk]
  simp [h1]

theorem claim3_fallback_witness :
    ([2, 0, 1] : List ℕ).Perm (List.range 3) ∧ (1 : ℕ) < 3
    ∧ (∃ e, (sampleOutcomes 1).bind (fun af =>
        prepare_audio_payload (some af) 20 none none false) = .error e)
    ∧ processTts (sampleOutcomes 1) none none 1
      = (silentPayload 20 none none false, 1) :=
  ⟨by decide, by decide, ⟨"synthesis failed", rfl⟩,
   (claim3_fallback sampleOutcomes (fun _ => none) (fun _ => none) 3 1 [2, 0, 1]
     (by decide) (by decide) ⟨"synthesis failed", rfl⟩).1⟩

/-- C4 counterexample: two segments 0 and 1 arrive in order and the outbound
send fails exactly at position 0. The claim predicts that
`_next_sequence_to_send` still advances past 0 and payload 1 is subsequently
delivered. In the code the increment textually follows the failing
`await websocket_send`, so it is skipped: the final state has
`_next_sequence_to_send = 0`, nothing was ever delivered, and payload 1 sits
in the pending buffer forever — refuting the claim at this input. -/
theorem claim4_counterexample :
    (runSender (fun s => s != 0) initialSenderState
      [(samplePayload 0, 0), (samplePayload 1, 1)]).next = 0
    ∧ (runSender (fun s => s != 0) initialSenderState
      [(samplePayload 0, 0), (samplePayload 1, 1)]).out = []
    ∧ (runSender (fun s => s != 0) initialSenderState
      [(samplePayload 0, 0), (samplePayload 1, 1)]).buf
        = [(1, samplePayload 1)] := by decide

/-- C4 amended: if the outbound send fails at position `k` (and succeeds
elsewhere), the payload at `k` is dropped — it is neither in the outbound log
nor re-buffered — but `_next_sequence_to_send` does NOT advance past `k`: it
ends exactly at `k`, only positions `0..k-1` are ever delivered, and every
payload with position greater than `k` stays in the pending buffer undelivered
(the pipeline stalls at `k` until the manager is cleared). -/
theorem claim4_send_failure_stalls (p : ℕ → Payload) (n k : ℕ) (hk : k < n)
    (arr : List ℕ) (hperm : arr.Perm (List.range n)) :
    (runSender (fun s => s != k) initialSenderState
      (arr.map fun i => (p i, i))).next = k
    ∧ (runSender (fun s => s != k) initialSenderState
      (arr.map fun i => (p i, i))).out
        = (List.range k).map (fun i => (i, p i))
    ∧ (∀ j, j ∈ keysOf (runSender (fun s => s != k) initialSenderState
        (arr.map fun i => (p i, i))).buf ↔ (j < n ∧ k < j)) := by
  have hnd : arr.Nodup := hperm.nodup_iff.mpr (List.nodup_range n)
  have hmem : ∀ j, j ∈ arr ↔ j < n := by
    intro j
    rw [hperm.mem_iff, List.mem_range]
  have hinv := @runSender_inv Payload (fun s => s != k) p arr [] initialSenderState
    (senderInv_initial (fun s => s != k) p) (by simp) hnd
  rw [List.nil_append] at hinv
  obtain ⟨hO, hT, hN, hV, hK, hK2, hR⟩ := hinv
  have hle : (runSender (fun s => s != k) initialSenderState
      (arr.map fun i => (p i, i))).next ≤ k := by
    by_contra hgt
    push_neg at hgt
    have := hT k hgt
    simp at this
  have hnext : (runSender (fun s => s != k) initialSenderState
      (arr.map fun i => (p i, i))).next = k := by
    rcases Nat.eq_or_lt_of_le hle with he | hlt
    · exact he
    · exfalso
      have hmem' : (runSender (fun s => s != k) initialSenderState
          (arr.map fun i => (p i, i))).next ∈ arr :=
        (hmem _).mpr (by omega)
      have := hK2 hmem'
      simp at this
      omega
  refine ⟨hnext, by rw [hO, hnext], ?_⟩
  intro j
  rw [hK j, hmem j, hnext]

theorem claim4_send_failure_stalls_witness :
    (0 : ℕ) < 2 ∧ ([0, 1] : List ℕ).Perm (List.range 2)
    ∧ (runSender (fun s => s != 0) initialSenderState
        (([0, 1] : List ℕ).map fun i => (samplePayload i, i))).next = 0 :=
  ⟨by decide, by decide,
   (claim4_send_failure_stalls samplePayload 2 0 (by decide) [0, 1] (by decide)).1⟩

theorem le_foldl_max (vs : List ℚ) : ∀ v : ℚ,
    v ≤ vs.foldl max v ∧ ∀ x ∈ vs, x ≤ vs.foldl max v := by
  induction vs with
  | nil => intro v; exact ⟨le_refl v, by simp⟩
  | cons a vs ih =>
    intro v
    simp only [List.foldl_cons]
    obtain ⟨h1, h2⟩ := ih (max v a)
    refine ⟨le_trans (le_max_left v a) h1, ?_⟩
    intro x hx
    rcases List.mem_cons.mp hx with hx | hx
    · rw [hx]
      exact le_trans (le_max_right v a) h1
    · exact h2 x hx

theorem foldl_max_mem (vs : List ℚ) : ∀ v : ℚ, vs.foldl max v ∈ v :: vs := by
  induction vs with
  | nil => intro v; simp
  | cons a vs ih =>
    intro v
    simp only [List.foldl_cons]
    rcases List.mem_cons.mp (ih (max v a)) with h | h
    · rcases max_choice v a with hm | hm
      · rw [h, hm]
        exact List.mem_cons_self _ _
      · rw [h, hm]
        exact List.mem_cons_of_mem _ (List.mem_cons_self _ _)
    · exact List.mem_cons_of_mem _ (List.mem_cons_of_mem _ h)

/-- C7: on per-window RMS values that are not all zero (RMS values are
nonnegative by construction), `_get_volume_by_chunks` returns the envelope
obtained by dividing each window's RMS by the maximum RMS: every entry lies in
`[0, 1]`, at least one entry equals `1`, and on the concrete input
`[10, 20, 0, 40, 20]` the envelope is `[0.25, 0.5, 0.0, 1.0, 0.5]`. -/
theorem claim7_loudness_normalization (volumes : List ℚ) (hne : volumes ≠ [])
    (hnn : ∀ v ∈ volumes, 0 ≤ v) (hnz : ∃ v ∈ volumes, v ≠ 0) :
    getVolumeByChunks volumes
      = .ok (volumes.map (fun v => v / maxVolume volumes))
    ∧ (∀ x ∈ volumes.map (fun v => v / maxVolume volumes), 0 ≤ x ∧ x ≤ 1)
    ∧ (1 : ℚ) ∈ volumes.map (fun v => v / maxVolume volumes)
    ∧ getVolumeByChunks [10, 20, 0, 40, 20] = .ok [1/4, 1/2, 0, 1, 1/2] := by
  cases volumes with
  | nil => exact absurd rfl hne
  | cons v vs =>
    have hM : maxVolume (v :: vs) ∈ v :: vs := foldl_max_mem vs v
    have hle : ∀ x ∈ v :: vs, x ≤ maxVolume (v :: vs) := by
      intro x hx
      rcases List.mem_cons.mp hx with hx | hx
      · rw [hx]
        exact (le_foldl_max vs v).1
      · exact (le_foldl_max vs v).2 x hx
    have hMpos : 0 < maxVolume (v :: vs) := by
      obtain ⟨w, hw, hwne⟩ := hnz
      have h0w : 0 ≤ w := hnn w hw
      have hwM : w ≤ maxVolume (v :: vs) := hle w hw
      have h0wlt : 0 < w := lt_of_le_of_ne h0w (Ne.symm hwne)
      exact lt_of_lt_of_le h0wlt hwM
    refine ⟨?_, ?_, ?_, ?_⟩
    · simp only [getVolumeByChunks]
      rw [if_neg (ne_of_gt hMpos)]
    · intro x hx
      obtain ⟨w, hw, rfl⟩ := List.mem_map.mp hx
      exact ⟨div_nonneg (hnn w hw) (le_of_lt hMpos),
             (div_le_one hMpos).mpr (hle w hw)⟩
    · exact List.mem_map.mpr ⟨maxVolume (v :: vs), hM, div_self (ne_of_gt hMpos)⟩
    · show Except.ok _ = _
      norm_num [getVolumeByChunks, maxVolume]

theorem claim7_loudness_normalization_witness :
    ([10, 20, 0, 40, 20] : List ℚ) ≠ []
    ∧ (∀ v ∈ ([10, 20, 0, 40, 20] : List ℚ), 0 ≤ v)
    ∧ (∃ v ∈ ([10, 20, 0, 40, 20] : List ℚ), v ≠ 0)
    ∧ getVolumeByChunks [10, 20, 0, 40, 20] = .ok [1/4, 1/2, 0, 1, 1/2] :=
  ⟨by decide, by decide, by decide,
   (claim7_loudness_normalization [10, 20, 0, 40, 20] (by decide) (by decide)
     (by decide)).2.2.2⟩

/-- C8: on an all-silence input — every per-window RMS value is zero (this
includes the vacuous no-window case, where Python's `max([])` itself raises) —
`_get_volume_by_chunks` raises an error and never returns an envelope. -/
theorem claim8_all_silence_raises (volumes : List ℚ)
    (hz : ∀ v ∈ volumes, v = 0) :
    ∃ e, getVolumeByChunks volumes = .error e := by
  cases volumes with
  | nil => exact ⟨"max arg is an empty sequence", rfl⟩
  | cons v vs =>
    have hM0 : maxVolume (v :: vs) = 0 := hz _ (foldl_max_mem vs v)
    refine ⟨"Audio is empty or all zero.", ?_⟩
    simp only [getVolumeByChunks]
    rw [if_pos hM0]

theorem claim8_all_silence_raises_witness :
    (∀ v ∈ ([0, 0, 0] : List ℚ), v = 0)
    ∧ ∃ e, getVolumeByChunks [0, 0, 0] = .error e :=
  ⟨by decide, claim8_all_silence_raises [0, 0, 0] (by decide)⟩

/-- C6: a segment whose (coerced) text strips to nothing under the whitespace
and sentence-terminal punctuation class — e.g. `"...!?"` — takes the silent
short-circuit of `speak`: no synthesis worker is spawned (so the synthesis
capability is never invoked; indeed the outcome argument is not consulted) and
exactly one silent payload is enqueued directly, tagged with the assigned
sequence number, with `audio = none`, `volumes = []` and the original display
and action metadata. -/
theorem claim6_silent_short_circuit (st : ManagerState) (arg : SpeakArg)
    (dd ac : Option String) (oc : Except String AudioFile)
    (h : isSilentText (strCoerce arg) = true) :
    (applyEvent st (.speak arg dd ac oc)).task_list = st.task_list
    ∧ (applyEvent st (.speak arg dd ac oc)).inFlight = st.inFlight
    ∧ (applyEvent st (.speak arg dd ac oc)).queue
      = st.queue ++ [({ payload := silentPayload 20 dd ac false,
                        epoch := st.epoch, uid := st.uidCounter },
                      st.sequence_counter)]
    ∧ (silentPayload 20 dd ac false).audio = none
    ∧ (silentPayload 20 dd ac false).volumes = []
    ∧ (silentPayload 20 dd ac false).display_text = dd
    ∧ (silentPayload 20 dd ac false).actions = ac := by
  simp only [applyEvent, speakImpl, h, if_true, enqueuePayload]
  exact ⟨trivial, trivial, trivial, rfl, rfl, rfl, rfl⟩

theorem claim6_silent_short_circuit_witness :
    isSilentText (strCoerce (.ofString "...!?")) = true
    ∧ (applyEvent initManager
        (.speak (.ofString "...!?") (some "display") none (sampleOutcomes 0))).task_list
      = initManager.task_list
    ∧ (silentPayload 20 (some "display") none false).audio = none :=
  ⟨by decide,
   (claim6_silent_short_circuit initManager (.ofString "...!?") (some "display")
     none (sampleOutcomes 0) (by decide)).1,
   (claim6_silent_short_circuit initManager (.ofString "...!?") (some "display")
     none (sampleOutcomes 0) (by decide)).2.2.2.1⟩

/-- C10: `speak` first coerces a non-`str` argument with `str()` and from then
on behaves exactly as if the coerced string had been passed: the transition is
identical, for every manager state, metadata and synthesis outcome. In
particular `speak` never raises a type error on account of the text argument's
type (`applyEvent` is total on `SpeakArg`). -/
theorem claim10_str_coercion (st : ManagerState) (arg : SpeakArg)
    (dd ac : Option String) (oc : Except String AudioFile) :
    applyEvent st (.speak arg dd ac oc)
      = applyEvent st (.speak (.ofString (strCoerce arg)) dd ac oc) := by
  cases arg <;> rfl

theorem drainAux_inFlight : ∀ (ws : List Worker) (st : ManagerState),
    (drainAux ws st).inFlight = st.inFlight := by
  intro ws
  induction ws with
  | nil => intro st; rfl
  | cons w ws ih => intro st; exact ih _

theorem drainAux_queue : ∀ (ws : List Worker) (st : ManagerState),
    (drainAux ws st).queue.map (fun q => (q.1.payload, q.2))
      = st.queue.map (fun q => (q.1.payload, q.2))
        ++ ws.map (fun w => (w.payload, w.seq)) := by
  intro ws
  induction ws with
  | nil => intro st; simp [drainAux]
  | cons w ws ih =>
    intro st
    simp only [drainAux]
    rw [ih]
    simp [enqueuePayload, List.append_assoc]

/-- C9 counterexample: a turn consisting of one segment `"...!?"` that is fully
handled by the silent short-circuit spawns no synthesis task, so `task_list`
is empty (Python falsy); the guarded finalization step
`if tts_manager.task_list: … send backend-synth-complete` then sends NO signal
at all, even though the segment's payload was enqueued — refuting the claim
that the signal is sent "including for turns where every segment was handled
by the silent short-circuit". -/
theorem claim9_counterexample :
    (applyEvent initManager
      (.speak (.ofString "...!?") none none (sampleOutcomes 0))).task_list = []
    ∧ (applyEvent initManager
      (.speak (.ofString "...!?") none none (sampleOutcomes 0))).queue.length = 1
    ∧ (finalizeTurn (applyEvent initManager
      (.speak (.ofString "...!?") none none (sampleOutcomes 0)))).2 = [] := by
  decide

/-- C9 amended: when at least one synthesis task was spawned in the turn
(`task_list` nonempty), the finalization step first makes every still-pending
worker enqueue its payload (the gather) and only then sends exactly one bare
backend-synth-complete signal; when every segment was short-circuited and no
task was spawned, no signal is sent. -/
theorem claim9_synth_complete_after_drain (st : ManagerState)
    (h : st.task_list ≠ []) :
    (finalizeTurn st).2 = [OutMsg.synthComplete]
    ∧ (finalizeTurn st).1.inFlight = []
    ∧ (finalizeTurn st).1.queue.map (fun q => (q.1.payload, q.2))
      = st.queue.map (fun q => (q.1.payload, q.2))
        ++ st.inFlight.map (fun w => (w.payload, w.seq)) := by
  have hne : st.task_list.isEmpty = false := by
    cases htl : st.task_list with
    | nil => exact absurd htl h
    | cons a l => rfl
  simp only [finalizeTurn, hne, Bool.false_eq_true, if_false]
  refine ⟨trivial, ?_, ?_⟩
  · simp only [drainWorkers]
    rw [drainAux_inFlight]
  · simp only [drainWorkers]
    rw [drainAux_queue]

theorem claim9_synth_complete_after_drain_witness :
    (applyEvent initManager
      (.speak (.ofString "Hello") none none (sampleOutcomes 0))).task_list ≠ []
    ∧ (finalizeTurn (applyEvent initManager
      (.speak (.ofString "Hello") none none (sampleOutcomes 0)))).2
      = [OutMsg.synthComplete] :=
  ⟨by decide,
   (claim9_synth_complete_after_drain _ (by decide)).1⟩

theorem flushLoopAux_buf_sub {α : Type} (sendOk : ℕ → Bool) :
    ∀ (fuel next : ℕ) (buf out : List (ℕ × α)),
    ∀ kv ∈ (flushLoopAux sendOk fuel next buf out).2.1, kv ∈ buf := by
  intro fuel
  induction fuel with
  | zero =>
    intro next buf out kv h
    simpa [flushLoopAux] using h
  | succ fuel ih =>
    intro next buf out kv h
    simp only [flushLoopAux] at h
    split at h
    · exact h
    · rename_i v buf' hpk
      split at h
      · exact popKey_some_sub hpk kv (ih _ _ _ kv h)
      · exact popKey_some_sub hpk kv h

theorem flushLoopAux_out_sub {α : Type} (sendOk : ℕ → Bool) :
    ∀ (fuel next : ℕ) (buf out : List (ℕ × α)),
    ∀ e ∈ (flushLoopAux sendOk fuel next buf out).2.2,
      e ∈ out ∨ ∃ k0, (k0, e.2) ∈ buf := by
  intro fuel
  induction fuel with
  | zero =>
    intro next buf out e h
    simp only [flushLoopAux] at h
    exact Or.inl h
  | succ fuel ih =>
    intro next buf out e h
    simp only [flushLoopAux] at h
    split at h
    · exact Or.inl h
    · rename_i v buf' hpk
      split at h
      · rcases ih _ _ _ e h with h1 | ⟨k0, hk0⟩
        · rcases List.mem_append.mp h1 with h2 | h2
          · exact Or.inl h2
          · simp at h2
            right
            refine ⟨next, ?_⟩
            rw [h2]
            exact popKey_some_mem hpk
        · exact Or.inr ⟨k0, popKey_some_sub hpk _ hk0⟩
      · exact Or.inl h

theorem applyEvent_uid_safe (st : ManagerState) (e : MEvent) (u : ℕ)
    (hcnt : u < st.uidCounter)
    (hq : ∀ q ∈ st.queue, q.1.uid ≠ u)
    (hb : ∀ kv ∈ st.sender.buf, kv.2.uid ≠ u) :
    u < (applyEvent st e).uidCounter
    ∧ (∀ q ∈ (applyEvent st e).queue, q.1.uid ≠ u)
    ∧ (∀ kv ∈ (applyEvent st e).sender.buf, kv.2.uid ≠ u)
    ∧ (∀ o ∈ (applyEvent st e).sender.out, o.2.uid = u → o ∈ st.sender.out) := by
  cases e with
  | speak arg dd ac oc =>
    by_cases hsil : isSilentText (strCoerce arg) = true
    · simp only [applyEvent, speakImpl, hsil, if_true, enqueuePayload]
      refine ⟨by omega, ?_, hb, fun o ho hou => ho⟩
      intro q hq2
      rcases List.mem_append.mp hq2 with h | h
      · exact hq q h
      · simp at h
        subst h
        show st.uidCounter ≠ u
        omega
    · simp only [applyEvent, speakImpl, hsil, if_false]
      exact ⟨hcnt, hq, hb, fun o ho hou => ho⟩
  | workerDone i =>
    simp only [applyEvent]
    split
    · simp only [enqueuePayload]
      refine ⟨by omega, ?_, hb, fun o ho hou => ho⟩
      intro q hq2
      rcases List.mem_append.mp hq2 with h | h
      · exact hq q h
      · simp at h
        subst h
        show st.uidCounter ≠ u
        omega
    · exact ⟨hcnt, hq, hb, fun o ho hou => ho⟩
  | senderLoop =>
    simp only [applyEvent]
    split
    · exact ⟨hcnt, hq, hb, fun o ho hou => ho⟩
    · rename_i gp s rest hqeq
      have hgp : gp.uid ≠ u := by
        have := hq (gp, s) (by rw [hqeq]; exact List.mem_cons_self _ _)
        exact this
      have hrest : ∀ q ∈ rest, q.1.uid ≠ u := by
        intro q hq2
        exact hq q (by rw [hqeq]; exact List.mem_cons_of_mem _ hq2)
      have hbuf1 : ∀ kv ∈ dictInsert s gp st.sender.buf, kv.2.uid ≠ u := by
        intro kv hkv
        rcases dictInsert_mem kv hkv with h | h
        · rw [h]
          exact hgp
        · exact hb kv h
      refine ⟨hcnt, hrest, ?_, ?_⟩
      · intro kv hkv
        exact hbuf1 kv
          (flushLoopAux_buf_sub (fun _ => true) _ _ _ _ kv hkv)
      · intro o ho hou
        rcases flushLoopAux_out_sub (fun _ => true) _ _ _ _ o ho with h | ⟨k0, hk0⟩
        · exact h
        · exfalso
          exact hbuf1 (k0, o.2) hk0 hou
  | clear =>
    simp only [applyEvent]
    exact ⟨hcnt, by simp, by simp, fun o ho hou => ho⟩

theorem applyEvents_uid_safe : ∀ (tl : List MEvent) (st : ManagerState) (u : ℕ),
    u < st.uidCounter →
    (∀ q ∈ st.queue, q.1.uid ≠ u) →
    (∀ kv ∈ st.sender.buf, kv.2.uid ≠ u) →
    ∀ o ∈ (applyEvents st tl).sender.out, o.2.uid = u → o ∈ st.sender.out := by
  intro tl
  induction tl with
  | nil =>
    intro st u _ _ _ o ho _
    exact ho
  | cons e tl ih =>
    intro st u hcnt hq hb o ho hou
    obtain ⟨h1, h2, h3, h4⟩ := applyEvent_uid_safe st e u hcnt hq hb
    exact h4 o (ih (applyEvent st e) u h1 h2 h3 o ho hou) hou

/-- C5 counterexample: submit a segment (spawning a worker in epoch 0), call
`clear()` (epoch becomes 1), then let the stale worker complete. Because
`_process_tts` looks up `self._payload_queue` at enqueue time, the stale
payload lands in the NEW queue with its old sequence number 0; the next sender
iteration flushes it to the outbound channel. The final state has current
epoch 1 while the outbound log contains exactly one payload, tagged with the
previous lifecycle epoch 0 and sequence number 0 — refuting "no payload
belonging to the previous lifecycle epoch is ever flushed". -/
theorem claim5_counterexample :
    (applyEvents initManager
      [.speak (.ofString "Hello") (some "d") none (sampleOutcomes 0),
       .clear, .workerDone 0, .senderLoop]).epoch = 1
    ∧ ((applyEvents initManager
      [.speak (.ofString "Hello") (some "d") none (sampleOutcomes 0),
       .clear, .workerDone 0, .senderLoop]).sender.out.map
        (fun o => (o.1, o.2.epoch))) = [(0, 0)] := by
  decide

/-- C5 amended: `clear()` does reset everything it owns — the next submission
is assigned sequence number 0 (the sequence counter and
`_next_sequence_to_send` are reset to 0, the submission queue is replaced by an
empty one, the pending buffer dies with the cancelled sender task, the task
list is emptied), and no payload that was sitting in the discarded submission
queue or pending buffer at `clear()` time is ever flushed afterwards; HOWEVER,
a worker still in flight at `clear()` time later enqueues its payload into the
new queue under its old sequence number, and such a stale payload can be
flushed in the new epoch (see the counterexample). -/
theorem claim5_clear_reset (st : ManagerState) (tl : List MEvent)
    (hq : ∀ q ∈ st.queue, q.1.uid < st.uidCounter)
    (hb : ∀ kv ∈ st.sender.buf, kv.2.uid < st.uidCounter) :
    (applyEvent st .clear).sequence_counter = 0
    ∧ (applyEvent st .clear).sender.next = 0
    ∧ (applyEvent st .clear).queue = []
    ∧ (applyEvent st .clear).sender.buf = []
    ∧ (applyEvent st .clear).task_list = []
    ∧ (∀ arg dd ac oc,
        (applyEvent (applyEvent st .clear)
          (.speak arg dd ac oc)).sequence_counter = 1)
    ∧ (∀ o ∈ (applyEvents (applyEvent st .clear) tl).sender.out,
        o ∉ st.sender.out →
        (∀ q ∈ st.queue, o.2.uid ≠ q.1.uid)
        ∧ (∀ kv ∈ st.sender.buf, o.2.uid ≠ kv.2.uid)) := by
  refine ⟨rfl, rfl, rfl, rfl, rfl, ?_, ?_⟩
  · intro arg dd ac oc
    by_cases hsil : isSilentText (strCoerce arg) = true
    · simp [applyEvent, speakImpl, hsil, enqueuePayload]
    · simp [applyEvent, speakImpl, hsil]
  · intro o ho hnew
    constructor
    · intro q hq2 heq
      apply hnew
      have := applyEvents_uid_safe tl (applyEvent st .clear) q.1.uid
        (hq q hq2) (by simp [applyEvent]) (by simp [applyEvent]) o ho heq
      simpa [applyEvent] using this
    · intro kv hkv heq
      apply hnew
      have := applyEvents_uid_safe tl (applyEvent st .clear) kv.2.uid
        (hb kv hkv) (by simp [applyEvent]) (by simp [applyEvent]) o ho heq
      simpa [applyEvent] using this

theorem claim5_clear_reset_witness :
    (∀ q ∈ sampleDirtyState.queue, q.1.uid < sampleDirtyState.uidCounter)
    ∧ (∀ kv ∈ sampleDirtyState.sender.buf,
        kv.2.uid < sampleDirtyState.uidCounter)
    ∧ (applyEvent sampleDirtyState .clear).sequence_counter = 0
    ∧ (applyEvent sampleDirtyState .clear).queue = [] :=
  ⟨by decide, by decide,
   (claim5_clear_reset sampleDirtyState [] (by decide) (by decide)).1,
   (claim5_clear_reset sampleDirtyState [] (by decide) (by decide)).2.2.1⟩
